import Mathlib

/-!
Verification of the post-hoc calibration utilities (temperature scaling,
expected calibration error, decision-threshold search) of posthoc_utils.

Modelling conventions.  Tensors are lists of rationals; float arithmetic is
idealised as exact rational arithmetic.  The transcendental sigmoid has no
rational-valued counterpart, so it is kept as an explicit function parameter:
every statement below is proved for an arbitrary confidence map, hence in
particular for the mathematical sigmoid.  The fallible concatenations
(torch.cat and np.concatenate raise on an empty list of tensors) return
Option.  The LBFGS optimiser and the wrapped network are external
collaborators and enter as opaque function parameters.
-/

/-- Mean of a list of rationals, as tensor.mean(): sum divided by length.
In rational arithmetic the empty mean is 0/0 = 0; torch produces NaN there.
Every use below is guarded so that the two agree: the per-bin branch tests
strict positivity of the population proportion, which fails both for 0 and
for NaN, and the remaining means are only taken over non-empty bins. -/
def listMean (xs : List ℚ) : ℚ := xs.sum / (xs.length : ℚ)

/-- Membership mask of one ECE bin, from the line
in_bin = confidences.gt(bin_lower) * confidences.le(bin_upper):
left-exclusive, right-inclusive. The pair cl is (confidence, label). -/
def binPred (binLower binUpper : ℚ) (cl : ℚ × ℚ) : Bool :=
  decide (binLower < cl.1) && decide (cl.1 ≤ binUpper)

/-- Per-sample correctness, from predictions = confidences.gt(0.5) and
accuracies = predictions.eq(labels) (the boolean prediction is promoted
to 0.0 or 1.0 before comparison with the float label). -/
def predictionHit (cl : ℚ × ℚ) : Bool :=
  decide ((if (1 : ℚ) / 2 < cl.1 then (1 : ℚ) else 0) = cl.2)

/-- One iteration of the bin loop of _ECELoss.forward: the contribution of
the bin (binLower, binUpper] to the accumulator.  total is the number of
samples (the masks have that length, so the mask mean is count/total). -/
def eceBinTerm (total : ℕ) (pairs : List (ℚ × ℚ)) (binLower binUpper : ℚ) : ℚ :=
  let inBin := pairs.filter (binPred binLower binUpper)
  let propInBin : ℚ := (inBin.length : ℚ) / (total : ℚ)
  if 0 < propInBin then
    let accuracyInBin := listMean (inBin.map (fun cl => if predictionHit cl then (1 : ℚ) else 0))
    let avgConfidenceInBin := listMean (inBin.map Prod.fst)
    |avgConfidenceInBin - accuracyInBin| * propInBin
  else 0

/-- Body of _ECELoss.forward after the sigmoid: bin boundaries are
linspace(0, 1, nBins + 1), so bin i has lower edge i/nBins and upper edge
(i+1)/nBins; the accumulator is the sum of the per-bin contributions. -/
def eceForward (nBins : ℕ) (confidences labels : List ℚ) : ℚ :=
  ((List.range nBins).map (fun (i : ℕ) =>
      eceBinTerm confidences.length (confidences.zip labels)
        ((i : ℚ) / (nBins : ℚ)) (((i : ℚ) + 1) / (nBins : ℚ)))).sum

/-- _ECELoss.forward: confidences = torch.sigmoid(logits), then the bin
loop.  The sigmoid is the abstract parameter sig. -/
def eceLossForward (sig : ℚ → ℚ) (nBins : ℕ) (logits labels : List ℚ) : ℚ :=
  eceForward nBins (logits.map sig) labels

/-- Reference ECE, written from the specification text: assign each
confidence to the bin with lower < confidence ≤ upper; each non-empty bin
contributes the absolute gap between its average confidence and its
fraction of correct predictions, weighted by its share of the population;
empty bins contribute 0. -/
def specBinContribution (nBins total : ℕ) (confLabels : List (ℚ × ℚ)) (i : ℕ) : ℚ :=
  let members := confLabels.filter (fun cl =>
    decide ((i : ℚ) / (nBins : ℚ) < cl.1 ∧ cl.1 ≤ ((i : ℚ) + 1) / (nBins : ℚ)))
  if members.isEmpty then 0
  else
    let accuracyInBin : ℚ :=
      ((members.filter (fun cl =>
          decide ((if (1 : ℚ) / 2 < cl.1 then (1 : ℚ) else 0) = cl.2))).length : ℚ) /
        (members.length : ℚ)
    let avgConfidenceInBin : ℚ := (members.map Prod.fst).sum / (members.length : ℚ)
    |avgConfidenceInBin - accuracyInBin| * ((members.length : ℚ) / (total : ℚ))

/-- Reference ECE of the spec: sigmoid confidences, sum of per-bin
contributions over the nBins equal-width bins of the unit interval. -/
def specECE (sig : ℚ → ℚ) (nBins : ℕ) (logits labels : List ℚ) : ℚ :=
  ∑ i ∈ Finset.range nBins, specBinContribution nBins logits.length ((logits.map sig).zip labels) i

/-- State of a BinaryTemperatureScaling instance: the wrapped model and the
single learnable temperature scalar (initialised to 1.5 by the class). -/
structure BinaryTemperatureScaling (M : Type) where
  model : M
  temperature : ℚ
deriving DecidableEq

/-- BinaryTemperatureScaling.temperature_scale: elementwise division of the
logits by the held temperature. -/
def temperature_scale {M : Type} (c : BinaryTemperatureScaling M) (logits : List ℚ) : List ℚ :=
  logits.map (fun x => x / c.temperature)

/-- Number of validation batches consumed: int(len(val_loader)*val_fraction).
Python int() truncates toward zero, which on the non-negative products used
here coincides with the floor. -/
def batchLimit (numBatches : ℕ) (valFraction : ℚ) : ℕ :=
  (⌊(numBatches : ℚ) * valFraction⌋).toNat

/-- torch.cat: concatenation of a list of tensors; raises a RuntimeError on
an empty list, modelled as none. -/
def torchCat (ts : List (List ℚ)) : Option (List ℚ) :=
  if ts.isEmpty then none else some ts.flatten

/-- np.concatenate with axis=None: flattening concatenation of a list of
arrays; raises a ValueError on an empty list, modelled as none. -/
def npConcatenate (ts : List (List ℚ)) : Option (List ℚ) :=
  if ts.isEmpty then none else some ts.flatten

/-- BinaryTemperatureScaling.calibrate as explicit state passing.  The data
source is the list of (input batch, label batch) pairs in the shuffled
iteration order; islice keeps the first batchLimit of them.  forward is the
wrapped model run under no_grad with detached outputs, so it only reads the
model component.  lbfgs abstracts optimizer.step on the singleton parameter
list [temperature]: from the collected logits and labels and the current
temperature it produces the updated temperature, the only field written.
The final value is returned (return self.temperature.item()). -/
def calibrateRun {M : Type} (forward : M → List ℚ → List ℚ)
    (lbfgs : List ℚ → List ℚ → ℚ → ℚ)
    (c : BinaryTemperatureScaling M) (batches : List (List ℚ × List ℚ))
    (valFraction : ℚ) : Option (BinaryTemperatureScaling M × ℚ) :=
  let selected := batches.take (batchLimit batches.length valFraction)
  match torchCat (selected.map (fun b => forward c.model b.1)),
      torchCat (selected.map Prod.snd) with
  | some logits, some labels =>
      let t := lbfgs logits labels c.temperature
      some ({ c with temperature := t }, t)
  | _, _ => none

/-- ThresholdMoving.to_labels: (pos_probs >= threshold).astype(int). -/
def to_labels (posProbs : List ℚ) (threshold : ℚ) : List ℤ :=
  posProbs.map (fun p => if threshold ≤ p then (1 : ℤ) else 0)

/-- The candidate grid np.arange(0, 1, 0.001): the 1000 values k/1000. -/
def thresholdGrid : List ℚ :=
  (List.range 1000).map (fun (k : ℕ) => (k : ℚ) / 1000)

/-- np.argmax on a list of scores: the documented semantics is the index of
the first occurrence of the maximum value, i.e. the first index whose entry
is greater than or equal to every entry. -/
def npArgmax (scores : List ℚ) : ℕ :=
  scores.findIdx (fun x => scores.all (fun y => decide (y ≤ x)))

/-- Core of ThresholdMoving.search_threshold after the data collection:
score every candidate threshold with the supplied metric (called as
max_metric(labels, to_labels(probs, t))) and return the grid entry at the
argmax index. -/
def searchThresholdCore (maxMetric : List ℚ → List ℤ → ℚ)
    (labels posProbs : List ℚ) : ℚ :=
  let scores := thresholdGrid.map (fun t => maxMetric labels (to_labels posProbs t))
  thresholdGrid.getD (npArgmax scores) 0

/-- ThresholdMoving.search_threshold with the data collection step: the
calibrated forward pass composed with the sigmoid produces the positive
probabilities of each selected batch, which np.concatenate then flattens
(raising on an empty batch list). -/
def searchThresholdRun {M : Type} (calibratedForward : M → List ℚ → List ℚ)
    (sig : ℚ → ℚ) (maxMetric : List ℚ → List ℤ → ℚ) (model : M)
    (batches : List (List ℚ × List ℚ)) (valFraction : ℚ) : Option ℚ :=
  let selected := batches.take (batchLimit batches.length valFraction)
  match npConcatenate (selected.map (fun b => (calibratedForward model b.1).map sig)),
      npConcatenate (selected.map Prod.snd) with
  | some posProbs, some labels => some (searchThresholdCore maxMetric labels posProbs)
  | _, _ => none

/-- C6: to_labels maps each probability to the label 1 when it is at least
the threshold and 0 otherwise, and on the concrete spec example
probabilities [0.1, 0.4, 0.6, 0.9] with threshold 0.5 it yields
[0, 0, 1, 1]. -/
theorem to_labels_spec (posProbs : List ℚ) (threshold : ℚ) :
    to_labels posProbs threshold
        = posProbs.map (fun p => if p ≥ threshold then (1 : ℤ) else 0) ∧
      to_labels [1/10, 4/10, 6/10, 9/10] (1/2) = [0, 0, 1, 1] := by
  constructor
  · simp [to_labels, ge_iff_le]
  · norm_num [to_labels]

/-- C9: on zero-length logits and labels ECELoss.forward returns 0: every
bin fails the positivity test on its population proportion, so all bins are
skipped and the accumulator keeps its initial value. -/
theorem ece_empty_input (sig : ℚ → ℚ) (nBins : ℕ) :
    eceLossForward sig nBins [] [] = 0 := by
  simp [eceLossForward, eceForward, eceBinTerm]

/-- C3: temperature_scale returns the elementwise quotient of the logits by
the held temperature, with output length equal to input length; it is a
pure function of the calibrator state and the logits, so neither is
mutated. -/
theorem temperature_scale_spec {M : Type} (c : BinaryTemperatureScaling M)
    (logits : List ℚ) :
    (temperature_scale c logits).length = logits.length ∧
      ∀ i, i < logits.length →
        (temperature_scale c logits).getD i 0 = logits.getD i 0 / c.temperature := by
  refine ⟨List.length_map _ _, fun i hi => ?_⟩
  have hi2 : i < (temperature_scale c logits).length := by
    simpa [temperature_scale] using hi
  rw [List.getD_eq_getElem _ _ hi2, List.getD_eq_getElem _ _ hi]
  simp [temperature_scale]

/-- Witness for C3 at a concrete calibrator and logit list. -/
theorem temperature_scale_spec_witness :
    (temperature_scale (BinaryTemperatureScaling.mk () 2) [4, 6]).getD 1 0
      = ([4, 6] : List ℚ).getD 1 0 / (BinaryTemperatureScaling.mk () 2).temperature :=
  (temperature_scale_spec (BinaryTemperatureScaling.mk () 2) [4, 6]).2 1 (by decide)

/-- C5: when the selected validation subset is empty (val_fraction too small
or the source empty), both calibrate and search_threshold fail at the
concatenation step, modelled as none, instead of returning a temperature or
threshold. -/
theorem empty_validation_errors {M : Type} (forward : M → List ℚ → List ℚ)
    (lbfgs : List ℚ → List ℚ → ℚ → ℚ) (calibratedForward : M → List ℚ → List ℚ)
    (sig : ℚ → ℚ) (maxMetric : List ℚ → List ℤ → ℚ)
    (c : BinaryTemperatureScaling M) (model : M)
    (batches : List (List ℚ × List ℚ)) (valFraction : ℚ)
    (h : batchLimit batches.length valFraction = 0) :
    calibrateRun forward lbfgs c batches valFraction = none ∧
      searchThresholdRun calibratedForward sig maxMetric model batches valFraction = none := by
  constructor <;> simp [calibrateRun, searchThresholdRun, h, torchCat, npConcatenate]

/-- Witness for C5: the empty data source with val_fraction 1/2 selects zero
batches and both operations signal the error. -/
theorem empty_validation_errors_witness :
    calibrateRun (fun _ b => b) (fun _ _ t => t)
        (BinaryTemperatureScaling.mk () (3/2)) [] (1/2) = none ∧
      searchThresholdRun (fun _ b => b) (fun x => x) (fun _ _ => 0) () [] (1/2) = none :=
  empty_validation_errors (fun _ b => b) (fun _ _ t => t) (fun _ b => b)
    (fun x => x) (fun _ _ => 0) (BinaryTemperatureScaling.mk () (3/2)) () [] (1/2)
    (by simp [batchLimit])

/-- C10: a successful calibrate run mutates only the temperature scalar: the
returned state keeps the wrapped model unchanged, and its temperature is
exactly the returned value. -/
theorem calibrate_frame {M : Type} (forward : M → List ℚ → List ℚ)
    (lbfgs : List ℚ → List ℚ → ℚ → ℚ) (c : BinaryTemperatureScaling M)
    (batches : List (List ℚ × List ℚ)) (valFraction : ℚ)
    (c2 : BinaryTemperatureScaling M) (t : ℚ)
    (h : calibrateRun forward lbfgs c batches valFraction = some (c2, t)) :
    c2.model = c.model ∧ c2.temperature = t := by
  unfold calibrateRun at h
  dsimp only at h
  split at h
  · rw [Option.some_inj, Prod.mk.injEq] at h
    obtain ⟨h1, h2⟩ := h
    rw [← h1]
    exact ⟨rfl, h2⟩
  · exact absurd h (by simp)

/-- Witness for C10 at a concrete one-batch run with a concrete optimiser
step. -/
theorem calibrate_frame_witness :
    (BinaryTemperatureScaling.mk () (5/2)).model
        = (BinaryTemperatureScaling.mk () (3/2)).model ∧
      (BinaryTemperatureScaling.mk () (5/2)).temperature = 5/2 :=
  calibrate_frame (fun _ b => b) (fun _ _ t => t + 1)
    (BinaryTemperatureScaling.mk () (3/2)) [([1], [1])] 1
    (BinaryTemperatureScaling.mk () (5/2)) (5/2)
    (by norm_num [calibrateRun, batchLimit, torchCat])

/-- Sum of a function mapped over List.range equals the Finset.range sum. -/
theorem sum_map_range_eq (n : ℕ) (f : ℕ → ℚ) :
    ((List.range n).map f).sum = ∑ i ∈ Finset.range n, f i := by
  induction n with
  | zero => simp
  | succ m ih =>
    rw [List.range_succ, List.map_append, List.sum_append, Finset.sum_range_succ, ih]
    simp

/-- Sum of 0/1 indicators over a list counts the filtered sublist. -/
theorem sum_map_indicator {α : Type} (p : α → Bool) (l : List α) :
    (l.map (fun x => if p x then (1 : ℚ) else 0)).sum = ((l.filter p).length : ℚ) := by
  induction l with
  | nil => simp
  | cons a l ih =>
    by_cases h : p a <;> simp [List.filter_cons, h, ih, add_comm]

/-- Per-bin agreement between the loop body of ECELoss.forward and the bin
contribution written from the spec. -/
theorem eceBinTerm_eq_spec (nBins total : ℕ) (pairs : List (ℚ × ℚ)) (i : ℕ)
    (hle : pairs.length ≤ total) :
    eceBinTerm total pairs ((i : ℚ) / (nBins : ℚ)) (((i : ℚ) + 1) / (nBins : ℚ))
      = specBinContribution nBins total pairs i := by
  unfold eceBinTerm specBinContribution
  simp only [predictionHit]
  have hfilt : pairs.filter (fun cl =>
      decide ((i : ℚ) / (nBins : ℚ) < cl.1 ∧ cl.1 ≤ ((i : ℚ) + 1) / (nBins : ℚ)))
      = pairs.filter (binPred ((i : ℚ) / (nBins : ℚ)) (((i : ℚ) + 1) / (nBins : ℚ))) := by
    apply List.filter_congr
    intro x _
    simp [binPred, Bool.decide_and]
  rw [hfilt]
  set members := pairs.filter (binPred ((i : ℚ) / (nBins : ℚ)) (((i : ℚ) + 1) / (nBins : ℚ)))
    with hm
  rcases eq_or_ne members [] with he | hne
  · rw [he]
    simp
  · have hk : 0 < members.length := List.length_pos.mpr hne
    have hkt : members.length ≤ total :=
      le_trans (by rw [hm]; exact List.length_filter_le _ _) hle
    have htpos : 0 < total := lt_of_lt_of_le hk hkt
    have hprop : 0 < (members.length : ℚ) / (total : ℚ) :=
      div_pos (by exact_mod_cast hk) (by exact_mod_cast htpos)
    rw [if_pos hprop, if_neg (by simp [hne])]
    have hacc : listMean (members.map (fun cl =>
        if decide ((if (1 : ℚ) / 2 < cl.1 then (1 : ℚ) else 0) = cl.2) then (1 : ℚ) else 0))
        = ((members.filter (fun cl =>
            decide ((if (1 : ℚ) / 2 < cl.1 then (1 : ℚ) else 0) = cl.2))).length : ℚ) /
          (members.length : ℚ) := by
      unfold listMean
      rw [List.length_map, sum_map_indicator]
    have havg : listMean (members.map Prod.fst)
        = (members.map Prod.fst).sum / (members.length : ℚ) := by
      unfold listMean
      rw [List.length_map]
    rw [hacc, havg]

/-- C1: ECELoss.forward computes exactly the reference ECE of the spec:
sigmoid confidences, prediction 1 iff confidence above one half, bins with
left-exclusive right-inclusive membership, non-empty bins contributing the
weighted absolute confidence-accuracy gap and empty bins contributing 0. -/
theorem ece_matches_spec (sig : ℚ → ℚ) (nBins : ℕ) (logits labels : List ℚ)
    (hlen : logits.length = labels.length)
    (hbin : ∀ y ∈ labels, y = 0 ∨ y = 1) :
    eceLossForward sig nBins logits labels = specECE sig nBins logits labels := by
  unfold eceLossForward eceForward specECE
  rw [sum_map_range_eq]
  refine Finset.sum_congr rfl (fun i _ => ?_)
  rw [List.length_map]
  exact eceBinTerm_eq_spec nBins logits.length ((logits.map sig).zip labels) i
    (by rw [List.length_zip, List.length_map]; exact min_le_left _ _)

/-- Witness for C1 at concrete logits, labels, bin count and confidence
map. -/
theorem ece_matches_spec_witness :
    eceLossForward (fun x => x) 2 [1, -1] [1, 0] = specECE (fun x => x) 2 [1, -1] [1, 0] :=
  ece_matches_spec (fun x => x) 2 [1, -1] [1, 0] rfl
    (by intro y hy; simp at hy; rcases hy with rfl | rfl <;> norm_num)

/-- The bin contribution is invariant under permutation of the sample
pairs: it depends on them only through counts and sums. -/
theorem eceBinTerm_perm (total : ℕ) {p1 p2 : List (ℚ × ℚ)} (h : p1.Perm p2)
    (binLower binUpper : ℚ) :
    eceBinTerm total p1 binLower binUpper = eceBinTerm total p2 binLower binUpper := by
  unfold eceBinTerm
  have hf := h.filter (binPred binLower binUpper)
  have hk : (p1.filter (binPred binLower binUpper)).length
      = (p2.filter (binPred binLower binUpper)).length := hf.length_eq
  have hs1 : ((p1.filter (binPred binLower binUpper)).map
        (fun cl => if predictionHit cl then (1 : ℚ) else 0)).sum
      = ((p2.filter (binPred binLower binUpper)).map
        (fun cl => if predictionHit cl then (1 : ℚ) else 0)).sum :=
    (hf.map _).sum_eq
  have hs2 : ((p1.filter (binPred binLower binUpper)).map Prod.fst).sum
      = ((p2.filter (binPred binLower binUpper)).map Prod.fst).sum :=
    (hf.map _).sum_eq
  simp only [listMean, List.length_map, hk, hs1, hs2]

/-- C8: ECELoss.forward is invariant under a common permutation of logits
and labels: if the zipped pairs of one input are a permutation of the
zipped pairs of the other, the computed scalar is the same. -/
theorem ece_perm_invariant (sig : ℚ → ℚ) (nBins : ℕ)
    (logits labels logits2 labels2 : List ℚ)
    (h1 : logits.length = labels.length) (h2 : logits2.length = labels2.length)
    (hperm : (logits.zip labels).Perm (logits2.zip labels2)) :
    eceLossForward sig nBins logits labels = eceLossForward sig nBins logits2 labels2 := by
  have hlen : logits.length = logits2.length := by
    have hl := hperm.length_eq
    rw [List.length_zip, List.length_zip, ← h1, ← h2, min_self, min_self] at hl
    exact hl
  have hpairs : ((logits.map sig).zip labels).Perm ((logits2.map sig).zip labels2) := by
    rw [List.zip_map_left, List.zip_map_left]
    exact hperm.map _
  unfold eceLossForward eceForward
  refine congrArg List.sum (List.map_congr_left (fun i _ => ?_))
  rw [List.length_map, List.length_map, hlen]
  exact eceBinTerm_perm logits2.length hpairs _ _

/-- Witness for C8: swapping the two samples of a concrete pair of inputs
leaves the ECE unchanged. -/
theorem ece_perm_invariant_witness :
    eceLossForward (fun x => x) 2 [1, 2] [0, 1] = eceLossForward (fun x => x) 2 [2, 1] [1, 0] :=
  ece_perm_invariant (fun x => x) 2 [1, 2] [0, 1] [2, 1] [1, 0] rfl rfl
    (List.Perm.swap _ _ _)

/-- The per-bin contribution is non-negative: an absolute gap times a
non-negative proportion, or 0 for a skipped bin. -/
theorem eceBinTerm_nonneg (total : ℕ) (pairs : List (ℚ × ℚ)) (binLower binUpper : ℚ) :
    0 ≤ eceBinTerm total pairs binLower binUpper := by
  unfold eceBinTerm
  dsimp only
  split
  next h => exact mul_nonneg (abs_nonneg _) (le_of_lt h)
  next h => exact le_refl 0

/-- A mean of non-negative values is non-negative. -/
theorem listMean_nonneg (l : List ℚ) (h : ∀ x ∈ l, 0 ≤ x) : 0 ≤ listMean l :=
  div_nonneg (List.sum_nonneg h) (Nat.cast_nonneg _)

/-- A mean of values at most one is at most one (the empty mean is 0). -/
theorem listMean_le_one (l : List ℚ) (h : ∀ x ∈ l, x ≤ 1) : listMean l ≤ 1 := by
  rcases eq_or_ne l [] with rfl | hne
  · simp [listMean]
  · have hlen : (0 : ℚ) < (l.length : ℚ) := by
      exact_mod_cast List.length_pos.mpr hne
    rw [listMean, div_le_one hlen]
    have hs := List.sum_le_card_nsmul l 1 h
    simpa using hs

/-- A sample lies in at most one of the equal-width bins: the bins are
pairwise disjoint intervals. -/
theorem binPred_unique (n : ℕ) (hn : 0 < n) (cl : ℚ × ℚ) (i j : ℕ)
    (hi : binPred ((i : ℚ) / (n : ℚ)) (((i : ℚ) + 1) / (n : ℚ)) cl = true)
    (hj : binPred ((j : ℚ) / (n : ℚ)) (((j : ℚ) + 1) / (n : ℚ)) cl = true) :
    i = j := by
  have hnq : (0 : ℚ) < (n : ℚ) := by exact_mod_cast hn
  simp only [binPred, Bool.and_eq_true, decide_eq_true_eq] at hi hj
  by_contra hne
  rcases lt_or_gt_of_ne hne with hlt | hlt
  · have hle : ((i : ℚ) + 1) ≤ (j : ℚ) := by exact_mod_cast hlt
    have hd : ((i : ℚ) + 1) / (n : ℚ) ≤ (j : ℚ) / (n : ℚ) :=
      (div_le_div_iff_of_pos_right hnq).mpr hle
    linarith [hi.2, hj.1]
  · have hle : ((j : ℚ) + 1) ≤ (i : ℚ) := by exact_mod_cast hlt
    have hd : ((j : ℚ) + 1) / (n : ℚ) ≤ (i : ℚ) / (n : ℚ) :=
      (div_le_div_iff_of_pos_right hnq).mpr hle
    linarith [hi.1, hj.2]

/-- Across the bins of one pass, each sample is counted at most once. -/
theorem sum_bin_indicator_le_one (n : ℕ) (cl : ℚ × ℚ) :
    (∑ i ∈ Finset.range n,
        if binPred ((i : ℚ) / (n : ℚ)) (((i : ℚ) + 1) / (n : ℚ)) cl then (1 : ℕ) else 0) ≤ 1 := by
  rcases Nat.eq_zero_or_pos n with rfl | hn
  · simp
  · rw [← Finset.card_filter]
    refine Finset.card_le_one.mpr (fun a ha b hb => ?_)
    rw [Finset.mem_filter] at ha hb
    exact binPred_unique n hn cl a b ha.2 hb.2

/-- Length of a filtered cons splits into the head indicator plus the
filtered tail length. -/
theorem length_filter_cons {α : Type} (p : α → Bool) (a : α) (l : List α) :
    ((a :: l).filter p).length = (if p a then 1 else 0) + (l.filter p).length := by
  by_cases h : p a <;> simp [List.filter_cons, h, Nat.add_comm]

/-- The bin populations of one pass sum to at most the number of samples. -/
theorem sum_bin_counts_le (n : ℕ) (l : List (ℚ × ℚ)) :
    (∑ i ∈ Finset.range n,
        (l.filter (binPred ((i : ℚ) / (n : ℚ)) (((i : ℚ) + 1) / (n : ℚ)))).length) ≤ l.length := by
  induction l with
  | nil => simp
  | cons a l ih =>
    have hsplit : ∀ i ∈ Finset.range n,
        ((a :: l).filter (binPred ((i : ℚ) / (n : ℚ)) (((i : ℚ) + 1) / (n : ℚ)))).length
          = (if binPred ((i : ℚ) / (n : ℚ)) (((i : ℚ) + 1) / (n : ℚ)) a then 1 else 0)
            + (l.filter (binPred ((i : ℚ) / (n : ℚ)) (((i : ℚ) + 1) / (n : ℚ)))).length :=
      fun i _ => length_filter_cons _ a l
    rw [Finset.sum_congr rfl hsplit, Finset.sum_add_distrib]
    refine le_trans (Nat.add_le_add (sum_bin_indicator_le_one n a) ih) ?_
    simp [Nat.add_comm]

/-- With confidences inside the unit interval, a bin contributes at most
its population proportion. -/
theorem eceBinTerm_le_prop (total : ℕ) (pairs : List (ℚ × ℚ)) (binLower binUpper : ℚ)
    (hconf : ∀ cl ∈ pairs, 0 ≤ cl.1 ∧ cl.1 ≤ 1) :
    eceBinTerm total pairs binLower binUpper
      ≤ ((pairs.filter (binPred binLower binUpper)).length : ℚ) / (total : ℚ) := by
  unfold eceBinTerm
  dsimp only
  split
  next h =>
    set members := pairs.filter (binPred binLower binUpper) with hm
    have hsub : ∀ cl ∈ members, 0 ≤ cl.1 ∧ cl.1 ≤ 1 := fun cl hcl =>
      hconf cl (List.mem_of_mem_filter hcl)
    have hacc0 : 0 ≤ listMean (members.map (fun cl => if predictionHit cl then (1 : ℚ) else 0)) := by
      refine listMean_nonneg _ ?_
      intro x hx
      rw [List.mem_map] at hx
      obtain ⟨cl, _, rfl⟩ := hx
      split <;> norm_num
    have hacc1 : listMean (members.map (fun cl => if predictionHit cl then (1 : ℚ) else 0)) ≤ 1 := by
      refine listMean_le_one _ ?_
      intro x hx
      rw [List.mem_map] at hx
      obtain ⟨cl, _, rfl⟩ := hx
      split <;> norm_num
    have havg0 : 0 ≤ listMean (members.map Prod.fst) := by
      refine listMean_nonneg _ ?_
      intro x hx
      rw [List.mem_map] at hx
      obtain ⟨cl, hcl, rfl⟩ := hx
      exact (hsub cl hcl).1
    have havg1 : listMean (members.map Prod.fst) ≤ 1 := by
      refine listMean_le_one _ ?_
      intro x hx
      rw [List.mem_map] at hx
      obtain ⟨cl, hcl, rfl⟩ := hx
      exact (hsub cl hcl).2
    have habs : |listMean (members.map Prod.fst)
        - listMean (members.map (fun cl => if predictionHit cl then (1 : ℚ) else 0))| ≤ 1 := by
      rw [abs_le]
      constructor <;> linarith
    calc |listMean (members.map Prod.fst)
          - listMean (members.map (fun cl => if predictionHit cl then (1 : ℚ) else 0))|
          * ((members.length : ℚ) / (total : ℚ))
        ≤ 1 * ((members.length : ℚ) / (total : ℚ)) :=
          mul_le_mul_of_nonneg_right habs (le_of_lt h)
      _ = (members.length : ℚ) / (total : ℚ) := one_mul _
  next h =>
    exact div_nonneg (Nat.cast_nonneg _) (Nat.cast_nonneg _)

/-- Bounds for the bin loop over unit-interval confidences: the ECE sum is
non-negative and, since the bins are disjoint, at most 1. -/
theorem eceForward_bounds (nBins : ℕ) (confidences labels : List ℚ)
    (h : ∀ c ∈ confidences, 0 ≤ c ∧ c ≤ 1) :
    0 ≤ eceForward nBins confidences labels ∧ eceForward nBins confidences labels ≤ 1 := by
  unfold eceForward
  rw [sum_map_range_eq]
  constructor
  · exact Finset.sum_nonneg (fun i _ => eceBinTerm_nonneg _ _ _ _)
  · rcases eq_or_ne confidences [] with rfl | hne
    · have hz : ∀ i ∈ Finset.range nBins,
          eceBinTerm (List.length ([] : List ℚ)) (([] : List ℚ).zip labels)
            ((i : ℚ) / (nBins : ℚ)) (((i : ℚ) + 1) / (nBins : ℚ)) = 0 := by
        intro i _
        simp [eceBinTerm]
      rw [Finset.sum_congr rfl hz]
      simp
    · have hN : 0 < confidences.length := List.length_pos.mpr hne
      have hNQ : (0 : ℚ) < (confidences.length : ℚ) := by exact_mod_cast hN
      have hpairs : ∀ cl ∈ confidences.zip labels, 0 ≤ cl.1 ∧ cl.1 ≤ 1 := by
        intro cl hcl
        obtain ⟨x, y⟩ := cl
        exact h x (List.of_mem_zip hcl).1
      calc ∑ i ∈ Finset.range nBins,
            eceBinTerm confidences.length (confidences.zip labels)
              ((i : ℚ) / (nBins : ℚ)) (((i : ℚ) + 1) / (nBins : ℚ))
          ≤ ∑ i ∈ Finset.range nBins,
            (((confidences.zip labels).filter
                (binPred ((i : ℚ) / (nBins : ℚ)) (((i : ℚ) + 1) / (nBins : ℚ)))).length : ℚ)
              / (confidences.length : ℚ) :=
            Finset.sum_le_sum (fun i _ => eceBinTerm_le_prop _ _ _ _ hpairs)
        _ = ((∑ i ∈ Finset.range nBins,
              ((confidences.zip labels).filter
                (binPred ((i : ℚ) / (nBins : ℚ)) (((i : ℚ) + 1) / (nBins : ℚ)))).length : ℕ) : ℚ)
              / (confidences.length : ℚ) := by
            rw [Nat.cast_sum, Finset.sum_div]
        _ ≤ 1 := by
            rw [div_le_one hNQ]
            have h1 := sum_bin_counts_le nBins (confidences.zip labels)
            have h2 : (confidences.zip labels).length ≤ confidences.length := by
              rw [List.length_zip]
              exact min_le_left _ _
            exact_mod_cast le_trans h1 h2

/-- C7: for every confidence map with range inside the unit interval (as
the sigmoid has) and all finite inputs, the computed ECE lies in [0, 1]. -/
theorem ece_unit_interval (sig : ℚ → ℚ) (nBins : ℕ) (logits labels : List ℚ)
    (hsig : ∀ x, 0 ≤ sig x ∧ sig x ≤ 1) :
    0 ≤ eceLossForward sig nBins logits labels ∧
      eceLossForward sig nBins logits labels ≤ 1 := by
  unfold eceLossForward
  refine eceForward_bounds nBins (logits.map sig) labels ?_
  intro cv hc
  rw [List.mem_map] at hc
  obtain ⟨x, _, rfl⟩ := hc
  exact hsig x

/-- Witness for C7 with the constant one-half confidence map. -/
theorem ece_unit_interval_witness :
    0 ≤ eceLossForward (fun _ => 1/2) 15 [0] [1] ∧
      eceLossForward (fun _ => 1/2) 15 [0] [1] ≤ 1 :=
  ece_unit_interval (fun _ => 1/2) 15 [0] [1] (fun x => by norm_num)

/-- Every non-empty list of rationals has a maximal element. -/
theorem list_exists_max (l : List ℚ) (h : l ≠ []) : ∃ x ∈ l, ∀ y ∈ l, y ≤ x := by
  induction l with
  | nil => exact absurd rfl h
  | cons a l ih =>
    rcases eq_or_ne l [] with rfl | hne
    · refine ⟨a, List.mem_cons_self a [], ?_⟩
      intro y hy
      rcases List.mem_cons.mp hy with rfl | hy
      · exact le_refl y
      · exact absurd hy (List.not_mem_nil y)
    · obtain ⟨x, hx, hmax⟩ := ih hne
      rcases le_total x a with hxa | hax
      · refine ⟨a, List.mem_cons_self a l, ?_⟩
        intro y hy
        rcases List.mem_cons.mp hy with rfl | hy
        · exact le_refl y
        · exact le_trans (hmax y hy) hxa
      · refine ⟨x, List.mem_cons_of_mem a hx, ?_⟩
        intro y hy
        rcases List.mem_cons.mp hy with rfl | hy
        · exact hax
        · exact hmax y hy

/-- On a non-empty score list np.argmax returns a valid index. -/
theorem npArgmax_lt_length (l : List ℚ) (h : l ≠ []) : npArgmax l < l.length := by
  unfold npArgmax
  obtain ⟨x, hx, hmax⟩ := list_exists_max l h
  refine List.findIdx_lt_length_of_exists ⟨x, hx, ?_⟩
  rw [List.all_eq_true]
  intro y hy
  simpa using hmax y hy

/-- The score at the argmax index dominates every score. -/
theorem npArgmax_is_max (l : List ℚ) (hlt : npArgmax l < l.length) :
    ∀ y ∈ l, y ≤ l[npArgmax l] := by
  have hall : l.all (fun y => decide (y ≤ l[npArgmax l])) = true :=
    @List.findIdx_getElem ℚ (fun x => l.all (fun y => decide (y ≤ x))) l hlt
  intro y hy
  simpa using List.all_eq_true.mp hall y hy

/-- Before the argmax index no entry dominates every score: argmax is the
first occurrence of the maximum. -/
theorem npArgmax_first (l : List ℚ) (j : ℕ) (hj : j < l.length)
    (hjlt : j < npArgmax l) : ¬ (∀ y ∈ l, y ≤ l[j]) := by
  intro hmax
  have htrue : l.all (fun y => decide (y ≤ l[j])) = true := by
    rw [List.all_eq_true]
    intro y hy
    simpa using hmax y hy
  have hfalse : l.all (fun y => decide (y ≤ l[j])) = false :=
    @List.not_of_lt_findIdx ℚ (fun x => l.all (fun y => decide (y ≤ x))) l j hjlt
  rw [htrue] at hfalse
  simp at hfalse

/-- If the head already dominates every score, np.argmax returns 0. -/
theorem npArgmax_eq_zero_of_head_max (l : List ℚ) (h0 : 0 < l.length)
    (hmax : ∀ y ∈ l, y ≤ l[0]) : npArgmax l = 0 := by
  by_contra hne
  have hpos : 0 < npArgmax l := Nat.pos_of_ne_zero hne
  have htrue : l.all (fun y => decide (y ≤ l[0])) = true := by
    rw [List.all_eq_true]
    intro y hy
    simpa using hmax y hy
  have hfalse : l.all (fun y => decide (y ≤ l[0])) = false :=
    @List.not_of_lt_findIdx ℚ (fun x => l.all (fun y => decide (y ≤ x))) l 0 hpos
  rw [htrue] at hfalse
  simp at hfalse

/-- The argmax over the mapped scores is a valid grid index. -/
theorem argmax_lt (f : ℚ → ℚ) (grid : List ℚ) (hne : grid ≠ []) :
    npArgmax (grid.map f) < grid.length := by
  have h1 : grid.map f ≠ [] := by simpa using hne
  have h2 := npArgmax_lt_length (grid.map f) h1
  simpa using h2

/-- The grid entry at the argmax of the mapped scores achieves the maximum
score, and its index precedes every other index achieving that score. -/
theorem argmax_spec (f : ℚ → ℚ) (grid : List ℚ) (hne : grid ≠ [])
    (hix : npArgmax (grid.map f) < grid.length) :
    (∀ t ∈ grid, f t ≤ f (grid[npArgmax (grid.map f)])) ∧
      (∀ j, ∀ hj : j < grid.length,
        f (grid[j]) = f (grid[npArgmax (grid.map f)]) → npArgmax (grid.map f) ≤ j) := by
  have hlen : (grid.map f).length = grid.length := List.length_map _ _
  have hixs : npArgmax (grid.map f) < (grid.map f).length := by
    rw [hlen]
    exact hix
  have hmax := npArgmax_is_max (grid.map f) hixs
  have hsix : (grid.map f)[npArgmax (grid.map f)] = f (grid[npArgmax (grid.map f)]) :=
    List.getElem_map f
  constructor
  · intro t ht
    have h1 := hmax (f t) (List.mem_map_of_mem f ht)
    rw [hsix] at h1
    exact h1
  · intro j hj heq
    by_contra hlt
    push_neg at hlt
    have hjs : j < (grid.map f).length := by
      rw [hlen]
      exact hj
    refine npArgmax_first (grid.map f) j hjs hlt ?_
    intro y hy
    have hjget : (grid.map f)[j] = f (grid[j]) := List.getElem_map f
    rw [hjget, heq]
    have h2 := hmax y hy
    rw [hsix] at h2
    exact h2

/-- The candidate grid has 1000 entries. -/
theorem thresholdGrid_length : thresholdGrid.length = 1000 := by
  simp [thresholdGrid]

/-- The k-th grid candidate is k/1000. -/
theorem thresholdGrid_getElem (k : ℕ) (hk : k < thresholdGrid.length) :
    thresholdGrid[k] = (k : ℚ) / 1000 := by
  simp [thresholdGrid]

/-- The candidate grid is monotone in the index. -/
theorem thresholdGrid_mono (i j : ℕ) (hi : i < thresholdGrid.length)
    (hj : j < thresholdGrid.length) (hij : i ≤ j) :
    thresholdGrid[i] ≤ thresholdGrid[j] := by
  rw [thresholdGrid_getElem i hi, thresholdGrid_getElem j hj]
  have hc : (i : ℚ) ≤ (j : ℚ) := by exact_mod_cast hij
  exact (div_le_div_iff_of_pos_right (by norm_num)).mpr hc

set_option maxRecDepth 8000 in
/-- C4: search_threshold returns a member of the fixed grid of 1000 evenly
spaced candidates k/1000 for k < 1000; its return achieves the maximum
metric score over the grid; among grid candidates achieving that maximum it
is the smallest (np.argmax takes the first occurrence and the grid is
increasing); and for a constant metric it returns the smallest grid value
0. -/
theorem search_threshold_spec (maxMetric : List ℚ → List ℤ → ℚ)
    (labels posProbs : List ℚ) :
    searchThresholdCore maxMetric labels posProbs ∈ thresholdGrid ∧
      (∀ t ∈ thresholdGrid,
        maxMetric labels (to_labels posProbs t)
          ≤ maxMetric labels (to_labels posProbs (searchThresholdCore maxMetric labels posProbs))) ∧
      (∀ t ∈ thresholdGrid,
        maxMetric labels (to_labels posProbs t)
            = maxMetric labels (to_labels posProbs (searchThresholdCore maxMetric labels posProbs)) →
        searchThresholdCore maxMetric labels posProbs ≤ t) ∧
      (∀ q : ℚ, searchThresholdCore (fun _ _ => q) labels posProbs = 0) := by
  have hgne : thresholdGrid ≠ [] := by
    intro hempty
    have hlen := congrArg List.length hempty
    rw [thresholdGrid_length] at hlen
    simp at hlen
  have hix := argmax_lt (fun t => maxMetric labels (to_labels posProbs t)) thresholdGrid hgne
  obtain ⟨hmax, hfirst⟩ :=
    argmax_spec (fun t => maxMetric labels (to_labels posProbs t)) thresholdGrid hgne hix
  have hval : searchThresholdCore maxMetric labels posProbs
      = thresholdGrid[npArgmax (thresholdGrid.map
          (fun t => maxMetric labels (to_labels posProbs t)))] := by
    unfold searchThresholdCore
    exact List.getD_eq_getElem _ _ hix
  refine ⟨?_, ?_, ?_, ?_⟩
  · rw [hval]
    exact List.getElem_mem hix
  · intro t ht
    rw [hval]
    exact hmax t ht
  · intro t ht heq
    rw [hval] at heq ⊢
    obtain ⟨j, hj, hjt⟩ := List.mem_iff_getElem.mp ht
    have hje : maxMetric labels (to_labels posProbs (thresholdGrid[j]))
        = maxMetric labels (to_labels posProbs
            (thresholdGrid[npArgmax (thresholdGrid.map
              (fun t => maxMetric labels (to_labels posProbs t)))])) := by
      rw [hjt]
      exact heq
    have hle := hfirst j hj hje
    calc thresholdGrid[npArgmax (thresholdGrid.map
          (fun t => maxMetric labels (to_labels posProbs t)))]
        ≤ thresholdGrid[j] := thresholdGrid_mono _ j hix hj hle
      _ = t := hjt
  · intro q
    have h0 : 0 < thresholdGrid.length := by
      rw [thresholdGrid_length]
      norm_num
    have h0s : 0 < (thresholdGrid.map (fun _ => q)).length := by
      rw [List.length_map]
      exact h0
    have hargz : npArgmax (thresholdGrid.map (fun _ => q)) = 0 := by
      refine npArgmax_eq_zero_of_head_max _ h0s ?_
      intro y hy
      rw [List.mem_map] at hy
      obtain ⟨t, _, rfl⟩ := hy
      have hh : (thresholdGrid.map (fun _ => q))[0] = q := List.getElem_map _
      rw [hh]
    unfold searchThresholdCore
    dsimp only
    rw [hargz, List.getD_eq_getElem _ _ h0, thresholdGrid_getElem 0 h0]
    norm_num

/-- Witness for C4: for a concrete metric counting positive predictions,
the returned threshold is in the grid, dominates the score of candidate 0,
and a constant metric yields threshold 0. -/
theorem search_threshold_spec_witness :
    searchThresholdCore (fun _ preds => (preds.sum : ℚ)) [0] [1/2] ∈ thresholdGrid ∧
      (fun _ preds => ((preds.sum : ℤ) : ℚ)) [0]
          (to_labels [1/2] 0)
        ≤ (fun _ preds => ((preds.sum : ℤ) : ℚ)) [0]
          (to_labels [1/2] (searchThresholdCore (fun _ preds => ((preds.sum : ℤ) : ℚ)) [0] [1/2])) ∧
      searchThresholdCore (fun _ _ => (7 : ℚ)) [0] [1/2] = 0 := by
  have h0mem : (0 : ℚ) ∈ thresholdGrid := by
    have hm : ((0 : ℕ) : ℚ) / 1000 ∈ thresholdGrid :=
      List.mem_map_of_mem (fun (k : ℕ) => (k : ℚ) / 1000) (List.mem_range.mpr (by norm_num))
    simpa using hm
  refine ⟨(search_threshold_spec (fun _ preds => ((preds.sum : ℤ) : ℚ)) [0] [1/2]).1, ?_, ?_⟩
  · exact (search_threshold_spec (fun _ preds => ((preds.sum : ℤ) : ℚ)) [0] [1/2]).2.1 0 h0mem
  · exact (search_threshold_spec (fun _ preds => ((preds.sum : ℤ) : ℚ)) [0] [1/2]).2.2.2 7
